import Mathlib

/-!
Verification development for the voronoi-painter program (src/src/main.rs).

Modelling conventions:
* `f64` values are modelled as exact rationals (`ℚ`); the program only adds,
  subtracts, multiplies, divides by 2 and compares coordinates, and every
  concrete scenario below stays within exactly representable ranges.
* The machine integers `u32`/`u64` are modelled as `ℕ`; the one place where
  a `u32` multiplication can overflow (`minimum_distance * minimum_distance`
  in `generate_anchor_points`) is modelled with an explicit `% 2 ^ 32`
  (release-build wrapping semantics).
* Randomness is modelled by explicit oracles: the two `rng.gen::<f64>()`
  draws that build the first anchor become parameters `u v : ℚ` (each in
  `[0, 1)`), and the candidate generation around an accepted anchor
  (`generate_anchor_candidates`, 25 draws from the annulus) becomes a
  parameter `cand : Point → List Point`.  The angle/distance draw inside
  `random_point_at_certain_distance_from_given_point` is abstracted as the
  resulting proposed point (`proposals : ℕ → Point`); the function itself
  keeps its bounds test and retry recursion, made total with a fuel
  argument (`none` = still retrying after `fuel` draws).
* The unbounded `loop` of `generate_anchor_points` is modelled with a fuel
  argument; when the fuel runs out the state reached so far is returned,
  so the queue component being `[]` expresses that the loop has finished.
* File I/O: a file is `Option (List ℕ)` (`none` = the path cannot be
  opened, `some bytes` = its byte contents).  The external `byteorder`
  codec `LittleEndian::read_f64 / write_f64` is abstracted as parameters
  `dec : List ℕ → ℚ` and `enc : ℚ → List ℕ` (8 bytes per value).
-/

/-- `struct Point { x: f64, y: f64 }` (main.rs lines 14-18). -/
structure Point where
  x : ℚ
  y : ℚ
deriving DecidableEq

/-- `Rgba<u8>`: the four 8-bit colour channels of an anchor. -/
structure Rgba where
  r : ℕ
  g : ℕ
  b : ℕ
  a : ℕ
deriving DecidableEq

/-- `struct Anchor { point: Point, color: Rgba<u8> }` (main.rs lines 59-63). -/
structure Anchor where
  point : Point
  color : Rgba
deriving DecidableEq

/-- `struct Bounds { width: u64, height: u64 }` (main.rs lines 65-68). -/
structure Bounds where
  width : ℕ
  height : ℕ

/-- `Point::squared_distance_from` (main.rs lines 21-26). -/
def squared_distance_from (p other_point : Point) : ℚ :=
  (p.x - other_point.x) ^ 2 + (p.y - other_point.y) ^ 2

/-- The loop body of `Point::closest_anchor` (main.rs lines 37-53): one
update of the `closest_anchor : Option<(Anchor, f64)>` accumulator. -/
def closest_anchor_step (p : Point) (x : ℚ) (closest : Option (Anchor × ℚ))
    (anchor : Anchor) : Option (Anchor × ℚ) :=
  let distance := squared_distance_from p anchor.point
  if distance < x then
    some (anchor, distance)
  else
    match closest with
    | none => some (anchor, distance)
    | some (_, min_distance) =>
        if min_distance > distance then some (anchor, distance) else closest

/-- `Point::closest_anchor` (main.rs lines 28-56): `x = (d/2)^2`, then the
fold above over the anchor list, finally dropping the recorded distance. -/
def closest_anchor (p : Point) (anchors : List Anchor)
    (minimum_distance_between_anchors : ℕ) : Option Anchor :=
  let x := (minimum_distance_between_anchors : ℚ) / 2
  let x := x * x
  (anchors.foldl (closest_anchor_step p x) none).map Prod.fst

/-- Modelled from the spec (§4.1 wording): one step of the pure
nearest-anchor scan — keep the incumbent unless the new anchor is strictly
closer, so the first anchor encountered wins exact ties. -/
def closest_anchor_spec_step (p : Point) (best : Option Anchor)
    (anchor : Anchor) : Option Anchor :=
  match best with
  | none => some anchor
  | some current =>
      if squared_distance_from p anchor.point <
          squared_distance_from p current.point then
        some anchor
      else
        some current

/-- Modelled from the spec: the nearest-anchor operation as §4.1 words it —
scan the list keeping the anchor of minimal squared distance, a strictly
closer anchor replacing the incumbent, so the first anchor encountered
wins exact ties.  Used to compare `closest_anchor` against the spec. -/
def closest_anchor_spec (p : Point) (anchors : List Anchor) : Option Anchor :=
  anchors.foldl (closest_anchor_spec_step p) none

/-- The bounds test of `random_point_at_certain_distance_from_given_point`
(main.rs lines 91-92): strictly inside `(0, width) × (0, height)`. -/
def is_point_in_bounds (bounds : Bounds) (p : Point) : Bool :=
  (decide (0 < p.x) && decide (p.x < (bounds.width : ℚ))) &&
    (decide (0 < p.y) && decide (p.y < (bounds.height : ℚ)))

/-- `random_point_at_certain_distance_from_given_point` (main.rs lines
75-99).  The angle/distance draw (lines 82-89) is abstracted as
`proposals k`, the point the k-th draw would produce; the function keeps
the bounds check and the retry recursion (lines 91-98), made total with
`fuel`: `none` means the recursion has not produced a point within `fuel`
draws. -/
def random_point_at_certain_distance_from_given_point
    (proposals : ℕ → Point) (bounds : Bounds) : ℕ → ℕ → Option Point
  | _, 0 => none
  | k, fuel + 1 =>
      if is_point_in_bounds bounds (proposals k) then some (proposals k)
      else random_point_at_certain_distance_from_given_point proposals bounds (k + 1) fuel

/-- The validity test inside the frontier loop of `generate_anchor_points`
(main.rs lines 146-153): a candidate is valid iff no already accepted
anchor is strictly closer than the squared minimum distance. -/
def is_valid_anchor (final_anchors : List Point) (candidate : Point)
    (squared_minimum_distance : ℕ) : Bool :=
  final_anchors.all fun anchor =>
    ! decide (squared_distance_from anchor candidate < (squared_minimum_distance : ℚ))

/-- The frontier-queue `loop` of `generate_anchor_points` (main.rs lines
140-168).  `cand` models `generate_anchor_candidates` (the 25 random
candidates generated around a newly accepted anchor); the `VecDeque` is a
list popped at the head and extended at the tail; `fuel` bounds the number
of iterations, returning the current `(final_anchors, anchor_candidates)`
state when exhausted. -/
def anchor_loop (cand : Point → List Point) (squared_minimum_distance : ℕ) :
    ℕ → List Point → List Point → List Point × List Point
  | 0, final_anchors, anchor_candidates => (final_anchors, anchor_candidates)
  | _ + 1, final_anchors, [] => (final_anchors, [])
  | fuel + 1, final_anchors, candidate :: rest =>
      if is_valid_anchor final_anchors candidate squared_minimum_distance then
        anchor_loop cand squared_minimum_distance fuel
          (final_anchors ++ [candidate]) (rest ++ cand candidate)
      else
        anchor_loop cand squared_minimum_distance fuel final_anchors rest

/-- `generate_anchor_points` (main.rs lines 119-171).  `u` and `v` are the
two `rng.gen::<f64>()` draws (each in `[0,1)`) building the first anchor;
`squared_minimum_distance = minimum_distance * minimum_distance` is a
`u32` product, hence the `% 2 ^ 32`; the first anchor is pushed without
any distance test, its 25 candidates seed the queue, then the loop runs. -/
def generate_anchor_points (bounds : Bounds) (minimum_distance : ℕ)
    (u v : ℚ) (cand : Point → List Point) (fuel : ℕ) :
    List Point × List Point :=
  let squared_minimum_distance := minimum_distance * minimum_distance % 2 ^ 32
  let first_anchor : Point := ⟨u * (bounds.width : ℚ), v * (bounds.height : ℚ)⟩
  anchor_loop cand squared_minimum_distance fuel [first_anchor] (cand first_anchor)

/-- The per-column anchor filter of `pixel_calculator` (main.rs lines
181-189): keep anchors with `(x as i64 - d as i64) < anchor.x < (x as i64
+ d as i64)`, the casts being exact. -/
def column_filtered_anchors (anchors : List Anchor) (x : ℕ)
    (minimum_distance_between_anchors : ℕ) : List Anchor :=
  anchors.filter fun anchor =>
    decide ((((x : ℤ) - (minimum_distance_between_anchors : ℤ) : ℤ) : ℚ) < anchor.point.x) &&
      decide (anchor.point.x < (((x : ℤ) + (minimum_distance_between_anchors : ℤ) : ℤ) : ℚ))

/-- `pixel_calculator` (main.rs lines 173-209): filter the anchors for the
column, then for each row `y` in `0..image_height` push `(point, color)`
when `closest_anchor` returns an anchor, and nothing otherwise. -/
def pixel_calculator (x : ℕ) (image_height : ℕ) (anchors : List Anchor)
    (minimum_distance_between_anchors : ℕ) : List (Point × Rgba) :=
  let filtered_anchors :=
    column_filtered_anchors anchors x minimum_distance_between_anchors
  (List.range image_height).filterMap fun y : ℕ =>
    (closest_anchor ⟨(x : ℚ), (y : ℚ)⟩ filtered_anchors
        minimum_distance_between_anchors).map
      fun anchor => ((⟨(x : ℚ), (y : ℚ)⟩ : Point), anchor.color)

/-- The chunk-decoding loop of `read_anchor_points_from_file` (main.rs
lines 216-233): read 8 bytes for `x`, 8 bytes for `y`, push the point and
continue; any short read breaks the loop, dropping the incomplete tail. -/
def decode_anchor_points (dec : List ℕ → ℚ) : List ℕ → List Point
  | b0 :: b1 :: b2 :: b3 :: b4 :: b5 :: b6 :: b7 ::
    b8 :: b9 :: b10 :: b11 :: b12 :: b13 :: b14 :: b15 :: rest =>
      ⟨dec [b0, b1, b2, b3, b4, b5, b6, b7],
        dec [b8, b9, b10, b11, b12, b13, b14, b15]⟩ ::
        decode_anchor_points dec rest
  | _ => []

/-- `read_anchor_points_from_file` (main.rs lines 211-236): `File::open`
failure (missing path) propagates as an error via `?`; otherwise the byte
contents are decoded by the loop above and returned as `Ok`. -/
def read_anchor_points_from_file (dec : List ℕ → ℚ)
    (file : Option (List ℕ)) : Except Unit (List Point) :=
  match file with
  | none => Except.error ()
  | some bytes => Except.ok (decode_anchor_points dec bytes)

/-- `write_anchor_points_to_file` (main.rs lines 238-260) on a writable
path with all writes succeeding: the bytes written are `enc x` then
`enc y` for each point in order. -/
def write_anchor_points_to_file (enc : ℚ → List ℕ)
    (anchor_points : List Point) : List ℕ :=
  anchor_points.foldr (fun anchor acc => enc anchor.x ++ (enc anchor.y ++ acc)) []

/-! ### Codec lemmas (anchor cache, claims C4, C6, C7) -/

lemma list_eq_list16_of_length {l : List ℕ} (h : l.length = 16) :
    ∃ b0 b1 b2 b3 b4 b5 b6 b7 b8 b9 b10 b11 b12 b13 b14 b15,
      l = [b0, b1, b2, b3, b4, b5, b6, b7, b8, b9, b10, b11, b12, b13, b14, b15] := by
  rcases l with _ | ⟨b0, l⟩; · simp at h
  rcases l with _ | ⟨b1, l⟩; · simp at h
  rcases l with _ | ⟨b2, l⟩; · simp at h
  rcases l with _ | ⟨b3, l⟩; · simp at h
  rcases l with _ | ⟨b4, l⟩; · simp at h
  rcases l with _ | ⟨b5, l⟩; · simp at h
  rcases l with _ | ⟨b6, l⟩; · simp at h
  rcases l with _ | ⟨b7, l⟩; · simp at h
  rcases l with _ | ⟨b8, l⟩; · simp at h
  rcases l with _ | ⟨b9, l⟩; · simp at h
  rcases l with _ | ⟨b10, l⟩; · simp at h
  rcases l with _ | ⟨b11, l⟩; · simp at h
  rcases l with _ | ⟨b12, l⟩; · simp at h
  rcases l with _ | ⟨b13, l⟩; · simp at h
  rcases l with _ | ⟨b14, l⟩; · simp at h
  rcases l with _ | ⟨b15, l⟩; · simp at h
  rcases l with _ | ⟨b16, l⟩
  · exact ⟨b0, b1, b2, b3, b4, b5, b6, b7, b8, b9, b10, b11, b12, b13, b14, b15, rfl⟩
  · simp at h

lemma decode_anchor_points_cons16 (dec : List ℕ → ℚ) {l : List ℕ} (rest : List ℕ)
    (h : l.length = 16) :
    decode_anchor_points dec (l ++ rest) =
      Point.mk (dec (l.take 8)) (dec (l.drop 8)) :: decode_anchor_points dec rest := by
  obtain ⟨b0, b1, b2, b3, b4, b5, b6, b7, b8, b9, b10, b11, b12, b13, b14, b15, rfl⟩ :=
    list_eq_list16_of_length h
  rfl

lemma decode_anchor_points_nil_of_short (dec : List ℕ → ℚ) {l : List ℕ}
    (h : l.length < 16) : decode_anchor_points dec l = [] := by
  apply decode_anchor_points.eq_2
  intro b0 b1 b2 b3 b4 b5 b6 b7 b8 b9 b10 b11 b12 b13 b14 b15 rest heq
  rw [heq] at h
  simp at h
  omega

/-- C4 (counterexample): on a nonexistent path `read_anchor_points_from_file`
does not return an empty point set without error — it returns an error. -/
theorem c4_counterexample :
    read_anchor_points_from_file (fun _ => 0) none ≠ Except.ok [] := by
  simp [read_anchor_points_from_file]

/-- C4 (amended): `read_anchor_points_from_file` on a nonexistent path
returns the open error (the `?` on `File::open` propagates it); the caller
recovers by regenerating, so only downstream is it treated as empty. -/
theorem c4_missing_file_is_error (dec : List ℕ → ℚ) :
    read_anchor_points_from_file dec none = Except.error () := rfl

/-- C7: for every byte stream, the reader decodes exactly one point per
complete 16-byte group, silently dropping the incomplete tail (everything
past the greatest multiple of 16), and returns `Ok` — in particular for
streams whose length is not a multiple of 16, only the dangling tail
(including a lone `x` value) is lost and no error is raised. -/
theorem c7_reader_drops_incomplete_tail (dec : List ℕ → ℚ) (bytes : List ℕ) :
    read_anchor_points_from_file dec (some bytes) =
        Except.ok (decode_anchor_points dec bytes) ∧
      decode_anchor_points dec (bytes.take (16 * (bytes.length / 16))) =
        decode_anchor_points dec bytes ∧
      (decode_anchor_points dec bytes).length = bytes.length / 16 := by
  refine ⟨rfl, ?_⟩
  induction bytes using decode_anchor_points.induct dec with
  | case1 b0 b1 b2 b3 b4 b5 b6 b7 b8 b9 b10 b11 b12 b13 b14 b15 rest ih =>
      have hsplit :
          (b0 :: b1 :: b2 :: b3 :: b4 :: b5 :: b6 :: b7 ::
            b8 :: b9 :: b10 :: b11 :: b12 :: b13 :: b14 :: b15 :: rest) =
          [b0, b1, b2, b3, b4, b5, b6, b7, b8, b9, b10, b11, b12, b13, b14, b15] ++ rest := rfl
      have hlen16 :
          ([b0, b1, b2, b3, b4, b5, b6, b7, b8, b9, b10, b11, b12, b13, b14, b15] :
            List ℕ).length = 16 := rfl
      constructor
      · rw [hsplit]
        have hlen : (([b0, b1, b2, b3, b4, b5, b6, b7, b8, b9, b10, b11, b12, b13, b14, b15] :
            List ℕ) ++ rest).length = rest.length + 16 := by
          simp
        rw [hlen]
        have hmul : 16 * ((rest.length + 16) / 16) =
            ([b0, b1, b2, b3, b4, b5, b6, b7, b8, b9, b10, b11, b12, b13, b14, b15] :
              List ℕ).length + 16 * (rest.length / 16) := by
          rw [hlen16]; omega
        rw [hmul, List.take_append]
        rw [decode_anchor_points_cons16 dec _ hlen16,
          decode_anchor_points_cons16 dec _ hlen16]
        exact congrArg _ ih.1
      · rw [hsplit, decode_anchor_points_cons16 dec _ hlen16]
        have : (([b0, b1, b2, b3, b4, b5, b6, b7, b8, b9, b10, b11, b12, b13, b14, b15] :
            List ℕ) ++ rest).length = rest.length + 16 := by simp
        rw [this]
        simp only [List.length_cons, ih.2]
        omega
  | case2 t hne =>
      have hshort : t.length < 16 := by
        by_contra hge
        push_neg at hge
        have h1 : (t.take 16).length = 16 := by
          simp [List.length_take]
          omega
        obtain ⟨b0, b1, b2, b3, b4, b5, b6, b7, b8, b9, b10, b11, b12, b13, b14, b15, heq⟩ :=
          list_eq_list16_of_length h1
        exact hne b0 b1 b2 b3 b4 b5 b6 b7 b8 b9 b10 b11 b12 b13 b14 b15 (t.drop 16)
          (by rw [← List.take_append_drop 16 t, heq]; rfl)
      have hdec : decode_anchor_points dec t = [] :=
        decode_anchor_points_nil_of_short dec hshort
      have hdiv : t.length / 16 = 0 := by omega
      rw [hdec, hdiv]
      refine ⟨?_, rfl⟩
      simp [decode_anchor_points_nil_of_short]

/-- C6: the cache round-trip.  Writing a point list and decoding the
resulting byte stream restores exactly the same points in order, given
the `byteorder` codec contract on the written values: each value encodes
to 8 bytes and decodes back to itself bit-for-bit. -/
theorem c6_cache_round_trip (enc : ℚ → List ℕ) (dec : List ℕ → ℚ)
    (anchor_points : List Point)
    (hlen : ∀ p ∈ anchor_points, (enc p.x).length = 8 ∧ (enc p.y).length = 8)
    (hdec : ∀ p ∈ anchor_points, dec (enc p.x) = p.x ∧ dec (enc p.y) = p.y) :
    decode_anchor_points dec (write_anchor_points_to_file enc anchor_points) =
      anchor_points := by
  induction anchor_points with
  | nil => rfl
  | cons p ps ih =>
      have hx := (hlen p (by simp)).1
      have hy := (hlen p (by simp)).2
      have hw : write_anchor_points_to_file enc (p :: ps) =
          (enc p.x ++ enc p.y) ++ write_anchor_points_to_file enc ps := by
        simp [write_anchor_points_to_file]
      rw [hw, decode_anchor_points_cons16 dec _ (by simp [hx, hy]),
        List.take_left' hx, List.drop_left' hx]
      obtain ⟨h1, h2⟩ := hdec p (by simp)
      have hrec := ih (fun q hq => hlen q (by simp [hq])) (fun q hq => hdec q (by simp [hq]))
      rw [hrec, h1, h2]

def c6_enc (v : ℚ) : List ℕ := [v.num.toNat, 0, 0, 0, 0, 0, 0, 0]

def c6_dec (l : List ℕ) : ℚ := ((l.headD 0 : ℕ) : ℚ)

def c6_points : List Point := [⟨0, 1⟩, ⟨2, 3⟩]

/-- C6 (witness): the round-trip theorem applied to a concrete two-point
list with a concrete codec satisfying the contract on those values. -/
theorem c6_witness :
    decode_anchor_points c6_dec (write_anchor_points_to_file c6_enc c6_points) =
      c6_points :=
  c6_cache_round_trip c6_enc c6_dec c6_points
    (by intro p hp; fin_cases hp <;> exact ⟨rfl, rfl⟩)
    (by intro p hp; fin_cases hp <;> refine ⟨?_, ?_⟩ <;> simp [c6_enc, c6_dec])

/-! ### The per-column anchor filter (claim C8) -/

/-- C8: the column filter admits exactly the anchors whose x-coordinate
satisfies the strict two-sided inequality `|anchor.x - column| <
minimum_distance`, for every anchor set, column index and minimum
distance; in particular at column 50 with distance 10 exactly the open
interval (40, 60) is kept. -/
theorem c8_column_filter_strict (anchors : List Anchor) (x : ℕ)
    (minimum_distance : ℕ) (a : Anchor) :
    a ∈ column_filtered_anchors anchors x minimum_distance ↔
      a ∈ anchors ∧ |a.point.x - (x : ℚ)| < (minimum_distance : ℚ) := by
  rw [column_filtered_anchors, List.mem_filter]
  simp only [Bool.and_eq_true, decide_eq_true_eq]
  constructor
  · rintro ⟨hm, h1, h2⟩
    refine ⟨hm, ?_⟩
    rw [abs_sub_lt_iff]
    push_cast at h1 h2 ⊢
    constructor <;> linarith
  · rintro ⟨hm, h⟩
    rw [abs_sub_lt_iff] at h
    refine ⟨hm, ?_, ?_⟩ <;> push_cast <;> [linarith [h.2]; linarith [h.1]]

/-! ### The nearest-anchor scan (claim C2) -/

lemma squared_distance_from_comm (p q : Point) :
    squared_distance_from p q = squared_distance_from q p := by
  simp only [squared_distance_from]
  ring

lemma sqdist_triangle_bound (p a b : Point) :
    squared_distance_from a b ≤
      2 * squared_distance_from a p + 2 * squared_distance_from p b := by
  simp only [squared_distance_from]
  nlinarith [sq_nonneg ((a.x - p.x) - (p.x - b.x)), sq_nonneg ((a.y - p.y) - (p.y - b.y))]

lemma exists_first_split {α : Type} (P : α → Prop) :
    ∀ l : List α, (∃ a ∈ l, P a) →
      ∃ l₁ c l₂, l = l₁ ++ c :: l₂ ∧ P c ∧ ∀ a ∈ l₁, ¬ P a := by
  intro l
  induction l with
  | nil => rintro ⟨a, ha, -⟩; simp at ha
  | cons a t ih =>
      intro hex
      by_cases hPa : P a
      · exact ⟨[], a, t, rfl, hPa, by simp⟩
      · obtain ⟨b, hb, hPb⟩ := hex
        rcases List.mem_cons.mp hb with rfl | hbt
        · exact absurd hPb hPa
        · obtain ⟨l₁, c, l₂, heq, hPc, hl₁⟩ := ih ⟨b, hbt, hPb⟩
          refine ⟨a :: l₁, c, l₂, by simp [heq], hPc, ?_⟩
          intro q hq
          rcases List.mem_cons.mp hq with rfl | hql
          · exact hPa
          · exact hl₁ q hql

lemma closest_anchor_step_special (p : Point) (x : ℚ) (s : Option (Anchor × ℚ))
    (c : Anchor) (hc : squared_distance_from p c.point < x) :
    closest_anchor_step p x s c = some (c, squared_distance_from p c.point) := by
  cases s <;> simp [closest_anchor_step, if_pos hc]

lemma closest_anchor_step_no_special (p : Point) (x : ℚ) :
    ∀ (l : List Anchor) (b : Option Anchor),
      (∀ a ∈ l, ¬ squared_distance_from p a.point < x) →
      l.foldl (closest_anchor_step p x)
          (Option.map (fun a => (a, squared_distance_from p a.point)) b) =
        Option.map (fun a => (a, squared_distance_from p a.point))
          (l.foldl (closest_anchor_spec_step p) b) := by
  intro l
  induction l with
  | nil => intro b _; rfl
  | cons a t ih =>
      intro b h
      have ha := h a (by simp)
      have ht : ∀ q ∈ t, ¬ squared_distance_from p q.point < x :=
        fun q hq => h q (by simp [hq])
      simp only [List.foldl_cons]
      have hstep : closest_anchor_step p x
          (Option.map (fun a => (a, squared_distance_from p a.point)) b) a =
          Option.map (fun a => (a, squared_distance_from p a.point))
            (closest_anchor_spec_step p b a) := by
        cases b with
        | none => simp [closest_anchor_step, closest_anchor_spec_step, if_neg ha]
        | some c =>
            simp only [closest_anchor_step, closest_anchor_spec_step, Option.map_some',
              if_neg ha, gt_iff_lt]
            by_cases hlt : squared_distance_from p a.point <
                squared_distance_from p c.point
            · rw [if_pos hlt, if_pos hlt]
              rfl
            · rw [if_neg hlt, if_neg hlt]
              rfl
      rw [hstep]
      exact ih _ ht

lemma closest_anchor_fold_absorb (p : Point) (x : ℚ) :
    ∀ (l : List Anchor) (c : Anchor) (dc : ℚ),
      (∀ a ∈ l, dc ≤ squared_distance_from p a.point ∧
        ¬ squared_distance_from p a.point < x) →
      l.foldl (closest_anchor_step p x) (some (c, dc)) = some (c, dc) := by
  intro l
  induction l with
  | nil => intro c dc _; rfl
  | cons a t ih =>
      intro c dc h
      obtain ⟨hle, hnx⟩ := h a (by simp)
      have hstep : closest_anchor_step p x (some (c, dc)) a = some (c, dc) := by
        simp only [closest_anchor_step, if_neg hnx, gt_iff_lt]
        rw [if_neg (by exact not_lt.mpr hle)]
      simp only [List.foldl_cons, hstep]
      exact ih c dc fun q hq => h q (by simp [hq])

lemma closest_anchor_spec_fold_absorb (p : Point) :
    ∀ (l : List Anchor) (c : Anchor),
      (∀ a ∈ l, ¬ squared_distance_from p a.point <
        squared_distance_from p c.point) →
      l.foldl (closest_anchor_spec_step p) (some c) = some c := by
  intro l
  induction l with
  | nil => intro c _; rfl
  | cons a t ih =>
      intro c h
      have hstep : closest_anchor_spec_step p (some c) a = some c := by
        simp [closest_anchor_spec_step, if_neg (h a (by simp))]
      simp only [List.foldl_cons, hstep]
      exact ih c fun q hq => h q (by simp [hq])

lemma closest_anchor_spec_fold_mem (p : Point) :
    ∀ (l : List Anchor) (b : Option Anchor) (r : Anchor),
      l.foldl (closest_anchor_spec_step p) b = some r → b = some r ∨ r ∈ l := by
  intro l
  induction l with
  | nil => intro b r h; exact Or.inl h
  | cons a t ih =>
      intro b r h
      simp only [List.foldl_cons] at h
      rcases ih _ r h with hstep | hmem
      · cases b with
        | none =>
            simp only [closest_anchor_spec_step] at hstep
            exact Or.inr (by simp [← Option.some.injEq r a |>.mp hstep.symm])
        | some c =>
            simp only [closest_anchor_spec_step] at hstep
            by_cases hlt : squared_distance_from p a.point <
                squared_distance_from p c.point
            · rw [if_pos hlt] at hstep
              exact Or.inr (by simp [(Option.some.injEq a r).mp hstep])
            · rw [if_neg hlt] at hstep
              exact Or.inl hstep
      · exact Or.inr (by simp [hmem])

lemma closest_anchor_spec_fold_min (p : Point) :
    ∀ (l : List Anchor) (b : Option Anchor) (r : Anchor),
      l.foldl (closest_anchor_spec_step p) b = some r →
      (∀ a ∈ l, squared_distance_from p r.point ≤ squared_distance_from p a.point) ∧
        (∀ c, b = some c →
          squared_distance_from p r.point ≤ squared_distance_from p c.point) := by
  intro l
  induction l with
  | nil =>
      intro b r h
      refine ⟨by simp, ?_⟩
      rintro c rfl
      simp only [List.foldl_nil] at h
      rw [(Option.some.injEq c r).mp h]
  | cons a t ih =>
      intro b r h
      simp only [List.foldl_cons] at h
      obtain ⟨hmint, hminit⟩ := ih _ r h
      have hra : squared_distance_from p r.point ≤ squared_distance_from p a.point := by
        cases b with
        | none => exact hminit a rfl
        | some c =>
            simp only [closest_anchor_spec_step] at hminit
            by_cases hlt : squared_distance_from p a.point <
                squared_distance_from p c.point
            · exact hminit a (by rw [if_pos hlt])
            · exact le_trans (hminit c (by rw [if_neg hlt])) (not_lt.mp hlt)
      refine ⟨?_, ?_⟩
      · intro q hq
        rcases List.mem_cons.mp hq with rfl | hqt
        · exact hra
        · exact hmint q hqt
      · rintro c rfl
        simp only [closest_anchor_spec_step] at hminit
        by_cases hlt : squared_distance_from p a.point <
            squared_distance_from p c.point
        · exact le_trans (hminit a (by rw [if_pos hlt])) (le_of_lt hlt)
        · exact hminit c (by rw [if_neg hlt])

lemma closest_anchor_spec_fold_isSome (p : Point) :
    ∀ (l : List Anchor) (b : Option Anchor), b.isSome →
      (l.foldl (closest_anchor_spec_step p) b).isSome := by
  intro l
  induction l with
  | nil => intro b h; exact h
  | cons a t ih =>
      intro b _
      simp only [List.foldl_cons]
      apply ih
      cases b with
      | none => rfl
      | some c =>
          simp only [closest_anchor_spec_step]
          by_cases hlt : squared_distance_from p a.point <
              squared_distance_from p c.point
          · rw [if_pos hlt]; rfl
          · rw [if_neg hlt]; rfl

lemma closest_fold_eq_spec (p : Point) (x : ℚ) (l : List Anchor)
    (hone : ∀ l₁ c l₂, l = l₁ ++ c :: l₂ → squared_distance_from p c.point < x →
      ∀ a ∈ l₂, ¬ squared_distance_from p a.point < x) :
    (l.foldl (closest_anchor_step p x) none).map Prod.fst =
      l.foldl (closest_anchor_spec_step p) none := by
  by_cases hex : ∃ a ∈ l, squared_distance_from p a.point < x
  · obtain ⟨l₁, c, l₂, heq, hPc, hl₁⟩ :=
      exists_first_split (fun a : Anchor => squared_distance_from p a.point < x) l hex
    subst heq
    have hl₂ := hone l₁ c l₂ rfl hPc
    have hcode : (List.foldl (closest_anchor_step p x) none (l₁ ++ c :: l₂)).map
        Prod.fst = some c := by
      rw [List.foldl_append, List.foldl_cons, closest_anchor_step_special p x _ c hPc,
        closest_anchor_fold_absorb p x l₂ c _ ?habs]
      case habs =>
        intro a ha
        have hax := hl₂ a ha
        exact ⟨le_of_lt (lt_of_lt_of_le hPc (not_lt.mp hax)), hax⟩
      rfl
    have hstepc : closest_anchor_spec_step p
        (List.foldl (closest_anchor_spec_step p) none l₁) c = some c := by
      cases hfold : List.foldl (closest_anchor_spec_step p) none l₁ with
      | none => rfl
      | some b =>
          have hbmem : b ∈ l₁ := by
            rcases closest_anchor_spec_fold_mem p l₁ none b hfold with h | h
            · exact absurd h (by simp)
            · exact h
          simp only [closest_anchor_spec_step]
          rw [if_pos (lt_of_lt_of_le hPc (not_lt.mp (hl₁ b hbmem)))]
    have hspec : List.foldl (closest_anchor_spec_step p) none (l₁ ++ c :: l₂) =
        some c := by
      rw [List.foldl_append, List.foldl_cons, hstepc,
        closest_anchor_spec_fold_absorb p l₂ c ?habs2]
      case habs2 =>
        intro a ha
        exact not_lt.mpr (le_of_lt (lt_of_lt_of_le hPc (not_lt.mp (hl₂ a ha))))
    rw [hcode, hspec]
  · push_neg at hex
    have h' : ∀ a ∈ l, ¬ squared_distance_from p a.point < x :=
      fun a ha => not_lt.mpr (hex a ha)
    have hmap : List.foldl (closest_anchor_step p x) none l =
        Option.map (fun a => (a, squared_distance_from p a.point))
          (List.foldl (closest_anchor_spec_step p) none l) :=
      closest_anchor_step_no_special p x l none h'
    rw [hmap]
    cases List.foldl (closest_anchor_spec_step p) none l <;> rfl

/-- C2 (amended): whenever the anchor list satisfies the pairwise
minimum-distance invariant for `minimum_distance` — which is how the
program always invokes it — `closest_anchor` coincides with the pure
first-wins-ties minimal scan of the spec: it returns the first anchor in
iteration order of minimal squared distance, that anchor's distance is
less than or equal to every anchor's, and a non-empty list returns some
anchor.  (Without the invariant the `distance < (d/2)²` shortcut branch
can return a non-minimal anchor, see the counterexample.) -/
theorem c2_closest_anchor_on_separated (p : Point) (anchors : List Anchor)
    (minimum_distance : ℕ)
    (hsep : anchors.Pairwise (fun a b =>
      ((minimum_distance : ℚ) * minimum_distance) ≤
        squared_distance_from a.point b.point)) :
    closest_anchor p anchors minimum_distance = closest_anchor_spec p anchors ∧
      (∀ a, closest_anchor p anchors minimum_distance = some a →
        ∀ b ∈ anchors,
          squared_distance_from p a.point ≤ squared_distance_from p b.point) ∧
      (anchors ≠ [] →
        (closest_anchor p anchors minimum_distance).isSome = true) := by
  have hone : ∀ l₁ c l₂, anchors = l₁ ++ c :: l₂ →
      squared_distance_from p c.point <
        (minimum_distance : ℚ) / 2 * ((minimum_distance : ℚ) / 2) →
      ∀ a ∈ l₂, ¬ squared_distance_from p a.point <
        (minimum_distance : ℚ) / 2 * ((minimum_distance : ℚ) / 2) := by
    intro l₁ c l₂ heq hPc a ha hPa
    have hsep' := hsep
    rw [heq] at hsep'
    have h2 := (List.pairwise_append.mp hsep').2.1
    have h1 := (List.pairwise_cons.mp h2).1 a ha
    have h3 := sqdist_triangle_bound p c.point a.point
    rw [squared_distance_from_comm c.point p] at h3
    have h5 : (minimum_distance : ℚ) / 2 * ((minimum_distance : ℚ) / 2) * 4 =
        (minimum_distance : ℚ) * minimum_distance := by ring
    linarith
  have hmain : closest_anchor p anchors minimum_distance =
      closest_anchor_spec p anchors :=
    closest_fold_eq_spec p _ anchors hone
  refine ⟨hmain, ?_, ?_⟩
  · intro a ha b hb
    rw [hmain] at ha
    exact (closest_anchor_spec_fold_min p anchors none a ha).1 b hb
  · intro hne
    rw [hmain]
    cases anchors with
    | nil => exact absurd rfl hne
    | cons a t =>
        show (List.foldl (closest_anchor_spec_step p) none (a :: t)).isSome = true
        rw [List.foldl_cons]
        exact closest_anchor_spec_fold_isSome p t _ rfl

/-- C2 (counterexample): with two anchors both strictly inside the
`(d/2)²` shortcut radius, `closest_anchor` returns the later, farther
anchor, not the first anchor of minimal squared distance: here distances
1 and 4 to the two anchors, yet the distance-4 anchor is returned. -/
theorem c2_counterexample :
    closest_anchor ⟨0, 0⟩
        [⟨⟨1, 0⟩, ⟨0, 0, 0, 255⟩⟩, ⟨⟨2, 0⟩, ⟨7, 7, 7, 255⟩⟩] 10 =
        some ⟨⟨2, 0⟩, ⟨7, 7, 7, 255⟩⟩ ∧
      squared_distance_from ⟨0, 0⟩ (⟨1, 0⟩ : Point) <
        squared_distance_from ⟨0, 0⟩ (⟨2, 0⟩ : Point) := by
  constructor
  · simp [closest_anchor, closest_anchor_step, squared_distance_from]
    norm_num
  · simp [squared_distance_from]

def c2_anchors : List Anchor := [⟨⟨0, 0⟩, ⟨0, 0, 0, 255⟩⟩, ⟨⟨20, 0⟩, ⟨9, 9, 9, 255⟩⟩]

/-- C2 (witness): the amended theorem at the spec's tie scenario — anchors
at (0,0) and (20,0) with minimum distance 10 (they satisfy the pairwise
invariant), queried from the equidistant pixel (10,0). -/
theorem c2_witness :
    closest_anchor ⟨10, 0⟩ c2_anchors 10 = closest_anchor_spec ⟨10, 0⟩ c2_anchors :=
  (c2_closest_anchor_on_separated ⟨10, 0⟩ c2_anchors 10
    (by norm_num [c2_anchors, List.pairwise_cons, squared_distance_from])).1

/-! ### Frontier-loop invariants (claims C1, C3, C10) -/

lemma is_valid_anchor_iff (final_anchors : List Point) (candidate : Point)
    (sqd : ℕ) :
    is_valid_anchor final_anchors candidate sqd = true ↔
      ∀ anchor ∈ final_anchors,
        (sqd : ℚ) ≤ squared_distance_from anchor candidate := by
  simp [is_valid_anchor, not_lt]

lemma is_point_in_bounds_iff (bounds : Bounds) (p : Point) :
    is_point_in_bounds bounds p = true ↔
      (0 < p.x ∧ p.x < (bounds.width : ℚ)) ∧
        (0 < p.y ∧ p.y < (bounds.height : ℚ)) := by
  simp [is_point_in_bounds]

lemma anchor_loop_pairwise (cand : Point → List Point) (sqd : ℕ) :
    ∀ (fuel : ℕ) (a q : List Point),
      a.Pairwise (fun p r => (sqd : ℚ) ≤ squared_distance_from p r) →
      ((anchor_loop cand sqd fuel a q).1).Pairwise
        (fun p r => (sqd : ℚ) ≤ squared_distance_from p r) := by
  intro fuel
  induction fuel with
  | zero => intro a q ha; exact ha
  | succ n ih =>
      intro a q ha
      cases q with
      | nil => exact ha
      | cons c rest =>
          show ((if is_valid_anchor a c sqd then
              anchor_loop cand sqd n (a ++ [c]) (rest ++ cand c)
            else anchor_loop cand sqd n a rest).1).Pairwise _
          split
          case isTrue hvalid =>
            apply ih
            rw [List.pairwise_append]
            refine ⟨ha, by simp, ?_⟩
            intro p hp c' hc'
            rw [List.mem_singleton.mp hc']
            exact (is_valid_anchor_iff a c sqd).mp hvalid p hp
          case isFalse =>
            exact ih a rest ha

lemma anchor_loop_mem_pred (cand : Point → List Point) (sqd : ℕ)
    (Q : Point → Prop) (hc : ∀ s, ∀ c ∈ cand s, Q c) :
    ∀ (fuel : ℕ) (a q : List Point), (∀ p ∈ a, Q p) → (∀ p ∈ q, Q p) →
      ∀ p ∈ (anchor_loop cand sqd fuel a q).1, Q p := by
  intro fuel
  induction fuel with
  | zero => intro a q ha _ p hp; exact ha p hp
  | succ n ih =>
      intro a q ha hq
      cases q with
      | nil => exact ha
      | cons c rest =>
          show ∀ p ∈ (if is_valid_anchor a c sqd then
              anchor_loop cand sqd n (a ++ [c]) (rest ++ cand c)
            else anchor_loop cand sqd n a rest).1, Q p
          split
          · apply ih
            · intro p hp
              rcases List.mem_append.mp hp with h | h
              · exact ha p h
              · rw [List.mem_singleton.mp h]; exact hq c (by simp)
            · intro p hp
              rcases List.mem_append.mp hp with h | h
              · exact hq p (by simp [h])
              · exact hc c p h
          · exact ih a rest ha fun p hp => hq p (by simp [hp])

lemma anchor_loop_mem_or (cand : Point → List Point) (sqd : ℕ)
    (R : Point → Prop) (hc : ∀ s, ∀ c ∈ cand s, R c) :
    ∀ (fuel : ℕ) (a q : List Point), (∀ p ∈ q, R p) →
      ∀ p ∈ (anchor_loop cand sqd fuel a q).1, p ∈ a ∨ R p := by
  intro fuel
  induction fuel with
  | zero => intro a q _ p hp; exact Or.inl hp
  | succ n ih =>
      intro a q hq
      cases q with
      | nil => intro p hp; exact Or.inl hp
      | cons c rest =>
          show ∀ p ∈ (if is_valid_anchor a c sqd then
              anchor_loop cand sqd n (a ++ [c]) (rest ++ cand c)
            else anchor_loop cand sqd n a rest).1, p ∈ a ∨ R p
          split
          · intro p hp
            have hq2 : ∀ r ∈ rest ++ cand c, R r := by
              intro r hr
              rcases List.mem_append.mp hr with h | h
              · exact hq r (by simp [h])
              · exact hc c r h
            rcases ih (a ++ [c]) (rest ++ cand c) hq2 p hp with h | h
            · rcases List.mem_append.mp h with h' | h'
              · exact Or.inl h'
              · exact Or.inr (by rw [List.mem_singleton.mp h']; exact hq c (by simp))
            · exact Or.inr h
          · intro p hp
            exact ih a rest (fun r hr => hq r (by simp [hr])) p hp

lemma anchor_loop_head (cand : Point → List Point) (sqd : ℕ) :
    ∀ (fuel : ℕ) (a q : List Point), a ≠ [] →
      ((anchor_loop cand sqd fuel a q).1).head? = a.head? := by
  intro fuel
  induction fuel with
  | zero => intro a q _; rfl
  | succ n ih =>
      intro a q ha
      cases q with
      | nil => rfl
      | cons c rest =>
          show ((if is_valid_anchor a c sqd then
              anchor_loop cand sqd n (a ++ [c]) (rest ++ cand c)
            else anchor_loop cand sqd n a rest).1).head? = a.head?
          split
          · rw [ih (a ++ [c]) _ (by simp)]
            cases a with
            | nil => exact absurd rfl ha
            | cons x xs => rfl
          · exact ih a rest ha

/-- C1 (amended): for every positive bounds and every minimum distance
whose square fits in a `u32` (no overflow in `minimum_distance *
minimum_distance`, i.e. d ≤ 65535 — the program uses d = 10), any two
distinct points of a generated anchor set are at squared distance at
least `d²` from each other, for every random-draw oracle and fuel. -/
theorem c1_minimum_distance_invariant (bounds : Bounds) (minimum_distance : ℕ)
    (u v : ℚ) (cand : Point → List Point) (fuel : ℕ)
    (hd : minimum_distance * minimum_distance < 2 ^ 32) :
    ∀ A ∈ (generate_anchor_points bounds minimum_distance u v cand fuel).1,
      ∀ B ∈ (generate_anchor_points bounds minimum_distance u v cand fuel).1,
        A ≠ B →
          (minimum_distance : ℚ) * minimum_distance ≤ squared_distance_from A B := by
  have hsym : Symmetric (fun p r : Point =>
      (minimum_distance : ℚ) * minimum_distance ≤ squared_distance_from p r) := by
    intro p r hpr
    rwa [squared_distance_from_comm]
  have hpair := anchor_loop_pairwise cand
    (minimum_distance * minimum_distance % 2 ^ 32) fuel
    [⟨u * (bounds.width : ℚ), v * (bounds.height : ℚ)⟩]
    (cand ⟨u * (bounds.width : ℚ), v * (bounds.height : ℚ)⟩) (by simp)
  have hpair' : ((generate_anchor_points bounds minimum_distance u v cand fuel).1).Pairwise
      (fun p r => (minimum_distance : ℚ) * minimum_distance ≤
        squared_distance_from p r) := by
    have hcast : ((minimum_distance * minimum_distance % 2 ^ 32 : ℕ) : ℚ) =
        (minimum_distance : ℚ) * minimum_distance := by
      rw [Nat.mod_eq_of_lt hd]
      push_cast
      ring
    refine List.Pairwise.imp ?_ hpair
    intro p r hle
    rw [← hcast]
    exact hle
  intro A hA B hB hAB
  exact hpair'.forall hsym hA hB hAB

def c1_cand (p : Point) : List Point := [⟨p.x + 10, p.y⟩]

/-- C1 (witness): the amended invariant applied to a concrete generated
set in 100×100 bounds with minimum distance 10 — the seed at (50,50) and
an accepted candidate at (60,50). -/
theorem c1_witness :
    ((10 : ℕ) : ℚ) * ((10 : ℕ) : ℚ) ≤
      squared_distance_from ⟨50, 50⟩ ⟨60, 50⟩ :=
  c1_minimum_distance_invariant ⟨100, 100⟩ 10 (1/2) (1/2) c1_cand 1
    (by norm_num) ⟨50, 50⟩
    (by norm_num [generate_anchor_points, anchor_loop, is_valid_anchor,
      squared_distance_from, c1_cand])
    ⟨60, 50⟩
    (by norm_num [generate_anchor_points, anchor_loop, is_valid_anchor,
      squared_distance_from, c1_cand])
    (by norm_num [Point.mk.injEq])

def c1_big_cand (p : Point) : List Point :=
  [⟨p.x + 65537, p.y⟩, ⟨p.x + 65535, p.y + 1000⟩]

/-- C1 (counterexample): at minimum_distance = 65537 the `u32` product
`minimum_distance * minimum_distance` wraps to 131073, so the sampler
accepts two candidates (both drawn from the genuine annulus
`[65537, 131074)` around the seed at (200000, 200000) inside positive
bounds 400000×400000) whose squared distance 1000004 is far below
`d² = 4295098369`: the claimed invariant fails for this minimum_distance. -/
theorem c1_counterexample :
    (⟨265537, 200000⟩ : Point) ∈
        (generate_anchor_points ⟨400000, 400000⟩ 65537 (1/2) (1/2) c1_big_cand 2).1 ∧
      (⟨265535, 201000⟩ : Point) ∈
        (generate_anchor_points ⟨400000, 400000⟩ 65537 (1/2) (1/2) c1_big_cand 2).1 ∧
      (⟨265537, 200000⟩ : Point) ≠ ⟨265535, 201000⟩ ∧
      squared_distance_from ⟨265537, 200000⟩ ⟨265535, 201000⟩ <
        (65537 : ℚ) * 65537 := by
  refine ⟨?_, ?_, ?_, ?_⟩ <;>
    norm_num [generate_anchor_points, anchor_loop, is_valid_anchor,
      squared_distance_from, c1_big_cand, Point.mk.injEq]

/-- C3 (amended): under in-bounds candidate draws (which
`random_point_at_certain_distance_from_given_point` guarantees, see
`random_point_in_bounds`), every generated point lies in
`[0, w) × [0, h)`, and every point other than the seed — i.e. every
accepted candidate — lies strictly inside, `0 < x < w ∧ 0 < y < h`.  The
seed itself is only guaranteed `0 ≤ x < w ∧ 0 ≤ y < h`: its draw
`u * width` with `u ∈ [0, 1)` can be exactly 0 (see the counterexample),
which the original claim's strict lower bound excludes. -/
theorem c3_generated_points_in_bounds (w h minimum_distance : ℕ) (u v : ℚ)
    (cand : Point → List Point) (fuel : ℕ)
    (hw : 0 < w) (hh : 0 < h) (hu0 : 0 ≤ u) (hu1 : u < 1)
    (hv0 : 0 ≤ v) (hv1 : v < 1)
    (hcand : ∀ s, ∀ c ∈ cand s, is_point_in_bounds ⟨w, h⟩ c = true) :
    (∀ P ∈ (generate_anchor_points ⟨w, h⟩ minimum_distance u v cand fuel).1,
        0 ≤ P.x ∧ P.x < (w : ℚ) ∧ 0 ≤ P.y ∧ P.y < (h : ℚ)) ∧
      ∀ P ∈ (generate_anchor_points ⟨w, h⟩ minimum_distance u v cand fuel).1,
        P ≠ ⟨u * (w : ℚ), v * (h : ℚ)⟩ →
          is_point_in_bounds ⟨w, h⟩ P = true := by
  have hwq : (0 : ℚ) < (w : ℚ) := by exact_mod_cast hw
  have hhq : (0 : ℚ) < (h : ℚ) := by exact_mod_cast hh
  constructor
  · apply anchor_loop_mem_pred cand _
      (fun P => 0 ≤ P.x ∧ P.x < (w : ℚ) ∧ 0 ≤ P.y ∧ P.y < (h : ℚ))
    · intro s c hcs
      obtain ⟨⟨h1, h2⟩, h3, h4⟩ := (is_point_in_bounds_iff ⟨w, h⟩ c).mp (hcand s c hcs)
      exact ⟨le_of_lt h1, h2, le_of_lt h3, h4⟩
    · intro p hp
      rw [List.mem_singleton.mp hp]
      exact ⟨mul_nonneg hu0 (le_of_lt hwq), mul_lt_of_lt_one_left hwq hu1,
        mul_nonneg hv0 (le_of_lt hhq), mul_lt_of_lt_one_left hhq hv1⟩
    · intro p hp
      obtain ⟨⟨h1, h2⟩, h3, h4⟩ := (is_point_in_bounds_iff ⟨w, h⟩ p).mp
        (hcand _ p hp)
      exact ⟨le_of_lt h1, h2, le_of_lt h3, h4⟩
  · intro P hP hPne
    rcases anchor_loop_mem_or cand _ (fun p => is_point_in_bounds ⟨w, h⟩ p = true)
      (fun s c hcs => hcand s c hcs) fuel _ _ (fun p hp => hcand _ p hp) P hP with
      hmem | hR
    · exact absurd (List.mem_singleton.mp hmem) hPne
    · exact hR

def c3_cand (s : Point) : List Point := [⟨30, 30⟩]

/-- C3 (witness): the amended bounds theorem applied to a generated set in
100×100 bounds, projected at the accepted candidate (30,30). -/
theorem c3_witness :
    (0 : ℚ) ≤ (Point.mk 30 30).x ∧ (Point.mk 30 30).x < ((100 : ℕ) : ℚ) ∧
      (0 : ℚ) ≤ (Point.mk 30 30).y ∧ (Point.mk 30 30).y < ((100 : ℕ) : ℚ) :=
  (c3_generated_points_in_bounds 100 100 10 (1/2) (1/2) c3_cand 1
    (by norm_num) (by norm_num) (by norm_num) (by norm_num) (by norm_num)
    (by norm_num)
    (by intro s c hc; simp only [c3_cand, List.mem_singleton] at hc; subst hc
        norm_num [is_point_in_bounds])).1
    ⟨30, 30⟩
    (by norm_num [generate_anchor_points, anchor_loop, is_valid_anchor,
      squared_distance_from, c3_cand])

def c3_empty_cand (s : Point) : List Point := []

/-- C3 (counterexample): with the seed draws both exactly 0 (a possible
value of `rng.gen::<f64>()`, which samples `[0, 1)`), the seed anchor is
(0, 0): it is in the generated set yet violates the claimed strict lower
bound `0 < x`. -/
theorem c3_counterexample :
    (⟨0, 0⟩ : Point) ∈
        (generate_anchor_points ⟨100, 100⟩ 10 0 0 c3_empty_cand 1).1 ∧
      ¬ (0 : ℚ) < (Point.mk 0 0).x := by
  constructor
  · norm_num [generate_anchor_points, anchor_loop, c3_empty_cand]
  · norm_num

/-- C10: the generated anchor set is never empty — its first element is
always the seed point built from the two initial draws, pushed before the
loop without any minimum-distance test, for every oracle and fuel. -/
theorem c10_first_anchor_is_seed (bounds : Bounds) (minimum_distance : ℕ)
    (u v : ℚ) (cand : Point → List Point) (fuel : ℕ) :
    (generate_anchor_points bounds minimum_distance u v cand fuel).1 ≠ [] ∧
      ((generate_anchor_points bounds minimum_distance u v cand fuel).1).head? =
        some ⟨u * (bounds.width : ℚ), v * (bounds.height : ℚ)⟩ := by
  have hhead := anchor_loop_head cand
    (minimum_distance * minimum_distance % 2 ^ 32) fuel
    [⟨u * (bounds.width : ℚ), v * (bounds.height : ℚ)⟩]
    (cand ⟨u * (bounds.width : ℚ), v * (bounds.height : ℚ)⟩) (by simp)
  have h2 : ((generate_anchor_points bounds minimum_distance u v cand fuel).1).head? =
      some ⟨u * (bounds.width : ℚ), v * (bounds.height : ℚ)⟩ := by
    rw [show (generate_anchor_points bounds minimum_distance u v cand fuel).1 =
      (anchor_loop cand (minimum_distance * minimum_distance % 2 ^ 32) fuel
        [⟨u * (bounds.width : ℚ), v * (bounds.height : ℚ)⟩]
        (cand ⟨u * (bounds.width : ℚ), v * (bounds.height : ℚ)⟩)).1 from rfl, hhead]
    rfl
  refine ⟨?_, h2⟩
  intro hnil
  rw [hnil] at h2
  simp at h2

/-! ### The pixel classifier (claim C9) -/

lemma closest_anchor_step_isSome (p : Point) (x : ℚ) (s : Option (Anchor × ℚ))
    (a : Anchor) : (closest_anchor_step p x s a).isSome = true := by
  cases s with
  | none => simp only [closest_anchor_step]; split <;> rfl
  | some pair =>
      obtain ⟨b, db⟩ := pair
      simp only [closest_anchor_step]
      split
      · rfl
      · split <;> rfl

lemma closest_anchor_fold_isSome (p : Point) (x : ℚ) :
    ∀ (l : List Anchor) (s : Option (Anchor × ℚ)), s.isSome = true →
      ((l.foldl (closest_anchor_step p x) s)).isSome = true := by
  intro l
  induction l with
  | nil => intro s hs; exact hs
  | cons a t ih =>
      intro s _
      rw [List.foldl_cons]
      exact ih _ (closest_anchor_step_isSome p x s a)

lemma closest_anchor_isSome_of_ne_nil (p : Point) (anchors : List Anchor)
    (minimum_distance : ℕ) (hne : anchors ≠ []) :
    (closest_anchor p anchors minimum_distance).isSome = true := by
  cases anchors with
  | nil => exact absurd rfl hne
  | cons a t =>
      show ((List.foldl (closest_anchor_step p
        ((minimum_distance : ℚ) / 2 * ((minimum_distance : ℚ) / 2))) none
          (a :: t)).map Prod.fst).isSome = true
      rw [List.foldl_cons]
      have h := closest_anchor_fold_isSome p
        ((minimum_distance : ℚ) / 2 * ((minimum_distance : ℚ) / 2)) t
        (closest_anchor_step p
          ((minimum_distance : ℚ) / 2 * ((minimum_distance : ℚ) / 2)) none a)
        (closest_anchor_step_isSome p
          ((minimum_distance : ℚ) / 2 * ((minimum_distance : ℚ) / 2)) none a)
      obtain ⟨r, hr⟩ := Option.isSome_iff_exists.mp h
      rw [hr]
      rfl

lemma closest_anchor_none_iff (p : Point) (anchors : List Anchor)
    (minimum_distance : ℕ) :
    closest_anchor p anchors minimum_distance = none ↔ anchors = [] := by
  constructor
  · intro hnone
    by_contra hne
    have := closest_anchor_isSome_of_ne_nil p anchors minimum_distance hne
    rw [hnone] at this
    exact absurd this (by simp)
  · rintro rfl
    rfl

lemma pairwise_filterMap_of_pairwise {α β : Type} (f : α → Option β)
    (R : α → α → Prop) (S : β → β → Prop)
    (hf : ∀ a b e e', R a b → f a = some e → f b = some e' → S e e') :
    ∀ l : List α, l.Pairwise R → (l.filterMap f).Pairwise S := by
  intro l
  induction l with
  | nil => intro _; simp
  | cons a t ih =>
      intro hl
      obtain ⟨ha, ht⟩ := List.pairwise_cons.mp hl
      rw [List.filterMap_cons]
      cases hfa : f a with
      | none => exact ih ht
      | some b =>
          refine List.pairwise_cons.mpr ⟨?_, ih ht⟩
          intro e he
          obtain ⟨a', ha't, hfa'⟩ := List.mem_filterMap.mp he
          exact hf a a' b e (ha a' ha't) hfa hfa'

/-- C9: for every column, height, anchor set and minimum distance, the
classifier emits an entry with point (x, y) exactly when y is a row of
the image and the column's filtered anchor subset is non-empty (rows with
no eligible anchor produce no entry); the emitted points are pairwise
distinct, so each row receives at most one entry; and `closest_anchor`
returns `none` exactly on the empty candidate list. -/
theorem c9_pixel_calculator_rows (x image_height : ℕ) (anchors : List Anchor)
    (minimum_distance : ℕ) :
    (∀ y : ℕ,
        (∃ e ∈ pixel_calculator x image_height anchors minimum_distance,
            e.1 = Point.mk (x : ℚ) (y : ℚ)) ↔
          (y < image_height ∧
            column_filtered_anchors anchors x minimum_distance ≠ [])) ∧
      (pixel_calculator x image_height anchors minimum_distance).Pairwise
        (fun e f => e.1 ≠ f.1) ∧
      ∀ p : Point,
        closest_anchor p (column_filtered_anchors anchors x minimum_distance)
            minimum_distance = none ↔
          column_filtered_anchors anchors x minimum_distance = [] := by
  have hpc : pixel_calculator x image_height anchors minimum_distance =
      (List.range image_height).filterMap fun y : ℕ =>
        (closest_anchor ⟨(x : ℚ), (y : ℚ)⟩
            (column_filtered_anchors anchors x minimum_distance)
            minimum_distance).map
          fun anchor => ((⟨(x : ℚ), (y : ℚ)⟩ : Point), anchor.color) := rfl
  refine ⟨?_, ?_, fun p => closest_anchor_none_iff p _ minimum_distance⟩
  · intro y
    constructor
    · rintro ⟨e, he, hey⟩
      rw [hpc] at he
      obtain ⟨y', hy', hf⟩ := List.mem_filterMap.mp he
      obtain ⟨a, ha, hae⟩ := Option.map_eq_some'.mp hf
      have hy'y : y' = y := by
        have : e.1 = Point.mk (x : ℚ) (y' : ℚ) := by rw [← hae]
        rw [this] at hey
        have := (Point.mk.injEq _ _ _ _).mp hey
        exact_mod_cast this.2
      subst hy'y
      refine ⟨List.mem_range.mp hy', ?_⟩
      intro hnil
      rw [(closest_anchor_none_iff _ _ _).mpr hnil] at ha
      exact Option.noConfusion ha
    · rintro ⟨hyh, hne⟩
      have hsome := closest_anchor_isSome_of_ne_nil ⟨(x : ℚ), (y : ℚ)⟩ _
        minimum_distance hne
      obtain ⟨a, ha⟩ := Option.isSome_iff_exists.mp hsome
      refine ⟨((⟨(x : ℚ), (y : ℚ)⟩ : Point), a.color), ?_, rfl⟩
      rw [hpc]
      exact List.mem_filterMap.mpr ⟨y, List.mem_range.mpr hyh, by rw [ha]; rfl⟩
  · rw [hpc]
    apply pairwise_filterMap_of_pairwise _ (fun y y' : ℕ => y ≠ y')
    · intro y y' e e' hyy' hfy hfy'
      obtain ⟨a, _, hae⟩ := Option.map_eq_some'.mp hfy
      obtain ⟨a', _, hae'⟩ := Option.map_eq_some'.mp hfy'
      rw [← hae, ← hae']
      intro heq
      have := (Point.mk.injEq _ _ _ _).mp heq
      exact hyy' (by exact_mod_cast this.2)
    · exact List.nodup_range image_height

/-! ### Termination of the sampler (claim C5) -/

/-- Closed box used by the packing argument: every point the loop ever
holds (seed or in-bounds candidate) lies in `[0, w] × [0, h]`. -/
def inClosedBox (w h : ℕ) (p : Point) : Prop :=
  0 ≤ p.x ∧ p.x ≤ (w : ℚ) ∧ 0 ≤ p.y ∧ p.y ≤ (h : ℚ)

/-- Half-unit grid cell of a point, for the pigeonhole bound. -/
def cellOf (p : Point) : ℤ × ℤ := (⌊2 * p.x⌋, ⌊2 * p.y⌋)

lemma abs_sub_lt_one_of_floor_eq {a b : ℚ} (h : ⌊a⌋ = ⌊b⌋) : |a - b| < 1 := by
  rw [abs_sub_lt_iff]
  constructor
  · have h1 := Int.lt_floor_add_one a
    have h2 := Int.floor_le b
    rw [h] at h1
    push_cast at h1 h2
    linarith
  · have h1 := Int.lt_floor_add_one b
    have h2 := Int.floor_le a
    rw [← h] at h1
    push_cast at h1 h2
    linarith

lemma sqdist_lt_half_of_cell_eq (p q : Point) (hc : cellOf p = cellOf q) :
    squared_distance_from p q < 1 / 2 := by
  have hx : |2 * p.x - 2 * q.x| < 1 :=
    abs_sub_lt_one_of_floor_eq (congrArg Prod.fst hc)
  have hy : |2 * p.y - 2 * q.y| < 1 :=
    abs_sub_lt_one_of_floor_eq (congrArg Prod.snd hc)
  obtain ⟨hx1, hx2⟩ := abs_lt.mp hx
  obtain ⟨hy1, hy2⟩ := abs_lt.mp hy
  simp only [squared_distance_from]
  nlinarith

lemma in_bounds_imp_box (w h : ℕ) (p : Point)
    (hp : is_point_in_bounds ⟨w, h⟩ p = true) : inClosedBox w h p := by
  obtain ⟨⟨h1, h2⟩, h3, h4⟩ := (is_point_in_bounds_iff ⟨w, h⟩ p).mp hp
  exact ⟨le_of_lt h1, le_of_lt h2, le_of_lt h3, le_of_lt h4⟩

lemma anchors_length_le (w h sqd : ℕ) (hsqd : 0 < sqd) (a : List Point)
    (hpair : a.Pairwise (fun p r => (sqd : ℚ) ≤ squared_distance_from p r))
    (hbox : ∀ p ∈ a, inClosedBox w h p) :
    a.length ≤ (2 * w + 1) * (2 * h + 1) := by
  classical
  have hone : (1 : ℚ) ≤ (sqd : ℚ) := by exact_mod_cast hsqd
  have hcellne : a.Pairwise (fun p r => cellOf p ≠ cellOf r) := by
    refine List.Pairwise.imp_of_mem ?_ hpair
    intro p r _ _ hle hc
    have := sqdist_lt_half_of_cell_eq p r hc
    linarith
  have hnodup : (a.map cellOf).Nodup := List.pairwise_map.mpr hcellne
  have hsub : ∀ z ∈ a.map cellOf,
      z ∈ Finset.Icc (0 : ℤ) (2 * w) ×ˢ Finset.Icc (0 : ℤ) (2 * h) := by
    intro z hz
    obtain ⟨p, hp, rfl⟩ := List.mem_map.mp hz
    obtain ⟨h1, h2, h3, h4⟩ := hbox p hp
    rw [Finset.mem_product, Finset.mem_Icc, Finset.mem_Icc]
    refine ⟨⟨?_, ?_⟩, ?_, ?_⟩
    · exact Int.floor_nonneg.mpr (by linarith)
    · have hle : (2 : ℚ) * p.x ≤ ((2 * w : ℕ) : ℚ) := by push_cast; linarith
      have := Int.floor_le_floor hle
      rwa [Int.floor_natCast] at this
    · exact Int.floor_nonneg.mpr (by linarith)
    · have hle : (2 : ℚ) * p.y ≤ ((2 * h : ℕ) : ℚ) := by push_cast; linarith
      have := Int.floor_le_floor hle
      rwa [Int.floor_natCast] at this
  calc a.length = (a.map cellOf).length := (List.length_map a cellOf).symm
    _ = (a.map cellOf).toFinset.card := (List.toFinset_card_of_nodup hnodup).symm
    _ ≤ (Finset.Icc (0 : ℤ) (2 * w) ×ˢ Finset.Icc (0 : ℤ) (2 * h)).card := by
        apply Finset.card_le_card
        intro z hz
        exact hsub z (List.mem_toFinset.mp hz)
    _ = (2 * w + 1) * (2 * h + 1) := by
        rw [Finset.card_product, Int.card_Icc, Int.card_Icc]
        simp only [sub_zero]
        rw [show ((2 * (w : ℤ)) + 1 : ℤ) = ((2 * w + 1 : ℕ) : ℤ) by push_cast; ring,
          show ((2 * (h : ℤ)) + 1 : ℤ) = ((2 * h + 1 : ℕ) : ℤ) by push_cast; ring,
          Int.toNat_natCast, Int.toNat_natCast]

lemma pairwise_snoc_of_valid (a : List Point) (c : Point) (sqd : ℕ)
    (hpair : a.Pairwise (fun p r => (sqd : ℚ) ≤ squared_distance_from p r))
    (hvalid : is_valid_anchor a c sqd = true) :
    (a ++ [c]).Pairwise (fun p r => (sqd : ℚ) ≤ squared_distance_from p r) := by
  rw [List.pairwise_append]
  refine ⟨hpair, by simp, ?_⟩
  intro p hp c' hc'
  rw [List.mem_singleton.mp hc']
  exact (is_valid_anchor_iff a c sqd).mp hvalid p hp

lemma anchor_loop_nil_queue (cand : Point → List Point) (sqd : ℕ) :
    ∀ (n : ℕ) (a : List Point), anchor_loop cand sqd n a [] = (a, []) := by
  intro n a
  cases n <;> rfl

lemma anchor_loop_add (cand : Point → List Point) (sqd : ℕ) :
    ∀ (n m : ℕ) (a q : List Point),
      anchor_loop cand sqd (n + m) a q =
        anchor_loop cand sqd m (anchor_loop cand sqd n a q).1
          (anchor_loop cand sqd n a q).2 := by
  intro n
  induction n with
  | zero => intro m a q; simp [anchor_loop]
  | succ n ih =>
      intro m a q
      cases q with
      | nil =>
          rw [anchor_loop_nil_queue]
          show (a, ([] : List Point)) = anchor_loop cand sqd m a []
          rw [anchor_loop_nil_queue]
      | cons c rest =>
          rw [show n + 1 + m = (n + m) + 1 from by omega]
          show (if is_valid_anchor a c sqd then
              anchor_loop cand sqd (n + m) (a ++ [c]) (rest ++ cand c)
            else anchor_loop cand sqd (n + m) a rest) =
            anchor_loop cand sqd m
              ((if is_valid_anchor a c sqd then
                  anchor_loop cand sqd n (a ++ [c]) (rest ++ cand c)
                else anchor_loop cand sqd n a rest)).1
              ((if is_valid_anchor a c sqd then
                  anchor_loop cand sqd n (a ++ [c]) (rest ++ cand c)
                else anchor_loop cand sqd n a rest)).2
          split
          · exact ih m (a ++ [c]) (rest ++ cand c)
          · exact ih m a rest

lemma anchor_loop_stable (cand : Point → List Point) (sqd : ℕ)
    (n : ℕ) (a q : List Point)
    (hn : (anchor_loop cand sqd n a q).2 = []) :
    ∀ m, n ≤ m → anchor_loop cand sqd m a q = anchor_loop cand sqd n a q := by
  intro m hnm
  obtain ⟨k, rfl⟩ := Nat.exists_eq_add_of_le hnm
  rw [anchor_loop_add]
  rcases hX : anchor_loop cand sqd n a q with ⟨A, Q⟩
  rw [hX] at hn
  simp only at hn
  subst hn
  exact anchor_loop_nil_queue cand sqd k A

lemma anchor_loop_terminates_aux (cand : Point → List Point) (sqd w h : ℕ)
    (hsqd : 0 < sqd)
    (hcand_box : ∀ s, ∀ c ∈ cand s, inClosedBox w h c)
    (hcand_len : ∀ s, (cand s).length = 25) :
    ∀ (m : ℕ) (a q : List Point),
      ((2 * w + 1) * (2 * h + 1) + 1 - a.length) * 26 + q.length ≤ m →
      a.Pairwise (fun p r => (sqd : ℚ) ≤ squared_distance_from p r) →
      (∀ p ∈ a, inClosedBox w h p) → (∀ p ∈ q, inClosedBox w h p) →
      ∃ n, (anchor_loop cand sqd n a q).2 = [] := by
  intro m
  induction m with
  | zero =>
      intro a q hm _ _ _
      have hq : q = [] := List.length_eq_zero.mp (by omega)
      exact ⟨1, by rw [hq, anchor_loop_nil_queue]⟩
  | succ m ih =>
      intro a q hm hpair hab hqb
      cases q with
      | nil => exact ⟨1, by rw [anchor_loop_nil_queue]⟩
      | cons c rest =>
          have hcbox : inClosedBox w h c := hqb c (by simp)
          by_cases hvalid : is_valid_anchor a c sqd = true
          · have hpair' := pairwise_snoc_of_valid a c sqd hpair hvalid
            have hab' : ∀ p ∈ a ++ [c], inClosedBox w h p := by
              intro p hp
              rcases List.mem_append.mp hp with hp' | hp'
              · exact hab p hp'
              · rw [List.mem_singleton.mp hp']; exact hcbox
            have hqb' : ∀ p ∈ rest ++ cand c, inClosedBox w h p := by
              intro p hp
              rcases List.mem_append.mp hp with hp' | hp'
              · exact hqb p (by simp [hp'])
              · exact hcand_box c p hp'
            have hlen' : (a ++ [c]).length ≤ (2 * w + 1) * (2 * h + 1) :=
              anchors_length_le w h sqd hsqd (a ++ [c]) hpair' hab'
            have hm' : ((2 * w + 1) * (2 * h + 1) + 1 - (a ++ [c]).length) * 26 +
                (rest ++ cand c).length ≤ m := by
              rw [List.length_append, List.length_append, List.length_singleton,
                hcand_len c] at *
              simp only [List.length_cons] at hm
              omega
            obtain ⟨n, hn⟩ := ih (a ++ [c]) (rest ++ cand c) hm' hpair' hab' hqb'
            refine ⟨n + 1, ?_⟩
            show ((if is_valid_anchor a c sqd then
                anchor_loop cand sqd n (a ++ [c]) (rest ++ cand c)
              else anchor_loop cand sqd n a rest)).2 = []
            rw [if_pos hvalid]
            exact hn
          · have hm' : ((2 * w + 1) * (2 * h + 1) + 1 - a.length) * 26 +
                rest.length ≤ m := by
              simp only [List.length_cons] at hm
              omega
            obtain ⟨n, hn⟩ := ih a rest hm' hpair hab
              (fun p hp => hqb p (by simp [hp]))
            refine ⟨n + 1, ?_⟩
            show ((if is_valid_anchor a c sqd then
                anchor_loop cand sqd n (a ++ [c]) (rest ++ cand c)
              else anchor_loop cand sqd n a rest)).2 = []
            rw [if_neg hvalid]
            exact hn

lemma random_point_succeeds (proposals : ℕ → Point) (bounds : Bounds) :
    ∀ (j k : ℕ), is_point_in_bounds bounds (proposals (k + j)) = true →
      ∃ n p, random_point_at_certain_distance_from_given_point proposals
        bounds k n = some p := by
  intro j
  induction j with
  | zero =>
      intro k hk
      rw [Nat.add_zero] at hk
      exact ⟨1, proposals k,
        by simp [random_point_at_certain_distance_from_given_point, hk]⟩
  | succ j ih =>
      intro k hk
      by_cases hk0 : is_point_in_bounds bounds (proposals k) = true
      · exact ⟨1, proposals k,
          by simp [random_point_at_certain_distance_from_given_point, hk0]⟩
      · obtain ⟨n, p, hn⟩ := ih (k + 1)
          (by rw [show k + 1 + j = k + (j + 1) from by omega]; exact hk)
        exact ⟨n + 1, p,
          by simp [random_point_at_certain_distance_from_given_point, hk0, hn]⟩

/-- Every point the (fuel-bounded) resampling returns passed the strict
bounds test: the justification for the in-bounds candidate hypothesis of
the loop theorems. -/
lemma random_point_in_bounds (proposals : ℕ → Point) (bounds : Bounds) :
    ∀ (n k : ℕ) (p : Point),
      random_point_at_certain_distance_from_given_point proposals bounds k n =
        some p → is_point_in_bounds bounds p = true := by
  intro n
  induction n with
  | zero => intro k p h; exact Option.noConfusion h
  | succ n ih =>
      intro k p h
      by_cases hk : is_point_in_bounds bounds (proposals k) = true
      · simp [random_point_at_certain_distance_from_given_point, hk] at h
        rw [← h]
        exact hk
      · simp [random_point_at_certain_distance_from_given_point, hk] at h
        exact ih (k + 1) p h

/-- C5 (amended): for positive finite bounds, a positive minimum distance
whose square fits in a `u32`, and draw sequences that behave as the code
relies on — every resampling call eventually proposes an in-bounds point
(first conjunct: such a call finishes), so every candidate handed to the
frontier loop is strictly in bounds and comes 25 per accepted anchor —
the frontier-queue loop of `generate_anchor_points` pops its queue empty
after finitely many iterations: some fuel reaches the empty queue and any
larger fuel returns the identical state.  (For an arbitrary sequence of
random draws the loop need not terminate, see the counterexample: a
sequence whose proposals all fall out of bounds keeps the resampling
recursion running forever.) -/
theorem c5_sampler_terminates (w h minimum_distance : ℕ) (u v : ℚ)
    (cand : Point → List Point)
    (hw : 0 < w) (hh : 0 < h) (hd : 0 < minimum_distance)
    (hdsq : minimum_distance * minimum_distance < 2 ^ 32)
    (hu0 : 0 ≤ u) (hu1 : u < 1) (hv0 : 0 ≤ v) (hv1 : v < 1)
    (hcand : ∀ s, ∀ c ∈ cand s, is_point_in_bounds ⟨w, h⟩ c = true)
    (hcand_len : ∀ s, (cand s).length = 25) :
    (∀ proposals : ℕ → Point,
        (∃ j, is_point_in_bounds ⟨w, h⟩ (proposals j) = true) →
        ∃ n p, random_point_at_certain_distance_from_given_point proposals
          ⟨w, h⟩ 0 n = some p) ∧
      ∃ n, (generate_anchor_points ⟨w, h⟩ minimum_distance u v cand n).2 = [] ∧
        ∀ m, n ≤ m →
          generate_anchor_points ⟨w, h⟩ minimum_distance u v cand m =
            generate_anchor_points ⟨w, h⟩ minimum_distance u v cand n := by
  constructor
  · rintro proposals ⟨j, hj⟩
    exact random_point_succeeds proposals ⟨w, h⟩ j 0 (by simpa using hj)
  · have hgen : ∀ f, generate_anchor_points ⟨w, h⟩ minimum_distance u v cand f =
        anchor_loop cand (minimum_distance * minimum_distance % 2 ^ 32) f
          [⟨u * (w : ℚ), v * (h : ℚ)⟩] (cand ⟨u * (w : ℚ), v * (h : ℚ)⟩) :=
      fun f => rfl
    have hsqd : 0 < minimum_distance * minimum_distance % 2 ^ 32 := by
      rw [Nat.mod_eq_of_lt hdsq]
      positivity
    have hwq : (0 : ℚ) < (w : ℚ) := by exact_mod_cast hw
    have hhq : (0 : ℚ) < (h : ℚ) := by exact_mod_cast hh
    have hseedbox : inClosedBox w h ⟨u * (w : ℚ), v * (h : ℚ)⟩ :=
      ⟨mul_nonneg hu0 (le_of_lt hwq),
        le_of_lt (mul_lt_of_lt_one_left hwq hu1),
        mul_nonneg hv0 (le_of_lt hhq),
        le_of_lt (mul_lt_of_lt_one_left hhq hv1)⟩
    obtain ⟨n, hn⟩ := anchor_loop_terminates_aux cand
      (minimum_distance * minimum_distance % 2 ^ 32) w h hsqd
      (fun s c hcs => in_bounds_imp_box w h c (hcand s c hcs))
      hcand_len
      (((2 * w + 1) * (2 * h + 1) + 1 -
          ([⟨u * (w : ℚ), v * (h : ℚ)⟩] : List Point).length) * 26 +
        (cand ⟨u * (w : ℚ), v * (h : ℚ)⟩).length)
      [⟨u * (w : ℚ), v * (h : ℚ)⟩] (cand ⟨u * (w : ℚ), v * (h : ℚ)⟩)
      (le_refl _) (by simp)
      (by intro p hp; rw [List.mem_singleton.mp hp]; exact hseedbox)
      (fun p hp => in_bounds_imp_box w h p (hcand _ p hp))
    refine ⟨n, ?_, ?_⟩
    · rw [hgen]
      exact hn
    · intro m hnm
      rw [hgen, hgen]
      exact anchor_loop_stable cand _ n _ _ hn m hnm

def c5_cand (s : Point) : List Point := List.replicate 25 ⟨50, 50⟩

/-- C5 (witness): the termination theorem at concrete 100×100 bounds with
minimum distance 10 and a concrete 25-candidate oracle. -/
theorem c5_witness :
    (∀ proposals : ℕ → Point,
        (∃ j, is_point_in_bounds ⟨100, 100⟩ (proposals j) = true) →
        ∃ n p, random_point_at_certain_distance_from_given_point proposals
          ⟨100, 100⟩ 0 n = some p) ∧
      ∃ n, (generate_anchor_points ⟨100, 100⟩ 10 (1/2) (1/2) c5_cand n).2 = [] ∧
        ∀ m, n ≤ m →
          generate_anchor_points ⟨100, 100⟩ 10 (1/2) (1/2) c5_cand m =
            generate_anchor_points ⟨100, 100⟩ 10 (1/2) (1/2) c5_cand n :=
  c5_sampler_terminates 100 100 10 (1/2) (1/2) c5_cand
    (by norm_num) (by norm_num) (by norm_num) (by norm_num)
    (by norm_num) (by norm_num) (by norm_num) (by norm_num)
    (by intro s c hc
        have hc' : c = ⟨50, 50⟩ := by simpa [c5_cand] using hc
        rw [hc']
        norm_num [is_point_in_bounds])
    (fun s => by simp [c5_cand])

/-- The constant out-of-bounds proposal for the C5 counterexample: at
distance 10 (the annulus minimum) from the seed (1/2, 1/2). -/
def c5_bad_point : Point := ⟨21 / 2, 1 / 2⟩

/-- C5 (counterexample): the claim as stated quantifies over every
sequence of random draws, but a sequence whose proposals never land in
bounds keeps `random_point_at_certain_distance_from_given_point`
resampling forever, so candidate generation (and with it the sampler)
never finishes.  Concretely, with positive bounds 1×1 and minimum
distance 10, every annulus draw around a seed at (1/2, 1/2) — e.g. the
proposal (21/2, 1/2), at distance 10 from the seed — is out of bounds,
and the constant sequence of that draw makes the resampling return no
point at any recursion depth. -/
theorem c5_counterexample :
    ¬ ∃ n p, random_point_at_certain_distance_from_given_point
        (fun k => c5_bad_point) ⟨1, 1⟩ 0 n = some p := by
  rintro ⟨n, p, hn⟩
  have hout : is_point_in_bounds ⟨1, 1⟩ c5_bad_point = false := by
    norm_num [is_point_in_bounds, c5_bad_point]
  have : ∀ (n k : ℕ), random_point_at_certain_distance_from_given_point
      (fun k => c5_bad_point) ⟨1, 1⟩ k n = none := by
    intro n
    induction n with
    | zero => intro k; rfl
    | succ n ih =>
        intro k
        simp [random_point_at_certain_distance_from_given_point, hout, ih]
  rw [this n 0] at hn
  exact Option.noConfusion hn
